import Mathlib

/-!
Verification development for the SOF STFT/FFT audio processing subsystem.

The definitions below are a shallow embedding of the C sources:
  src/math/fft/fft_common.c, src/math/fft/fft_32.c,
  src/audio/stft_process/stft_process-generic.c,
  src/audio/stft_process/stft_process_setup.c,
  src/audio/stft_process/stft_process_common.c,
  src/audio/phase_vocoder/phase_vocoder_common.c,
  src/include/sof/math/icomplex32.h.

Machine integers are modelled as Lean `Int`/`Nat` with explicit saturation
and wrapping where the source has it; C arithmetic right shift on signed
values is floor division by a power of two; buffers are Lean lists and the
C in-place loops are folds performing `List.set` updates.
-/

namespace SofStft

/-! ## Fixed-point primitives

Modelled from the spec: the saturation helpers and Q-format macros
(sat_int32, sat_int16, SATP_INT32, SATM_INT32, Q_SHIFT_RND, Q_SHIFT_LEFT,
Q_MULTSR_32X32, Q_CONVERT_FLOAT) live in sof/audio/format.h, which is not
among the provided sources; they are modelled from the spec's fixed-point
numeric contract (saturating clamp to the int32/int16 range; rounding
right shift implemented as shift, add one, shift one; Q1.31 x Q1.31
multiply shifted back by 31). -/

/-- C arithmetic right shift of a signed value: floor division by 2^n. -/
def sar (x : Int) (n : Nat) : Int := Int.fdiv x (2 ^ n)

/-- C left shift of a signed 64-bit value (no truncation modelled; the
callers below saturate or stay in range exactly as the source does). -/
def shl (x : Int) (n : Nat) : Int := x * 2 ^ n

/-- Modelled from the spec: sat_int32 from sof/audio/format.h, clamp of a
64-bit value to the int32 range. -/
def sat_int32 (x : Int) : Int :=
  if x > 2147483647 then 2147483647
  else if x < -2147483648 then -2147483648
  else x

/-- Modelled from the spec: sat_int16 from sof/audio/format.h, clamp to the
int16 range. -/
def sat_int16 (x : Int) : Int :=
  if x > 32767 then 32767
  else if x < -32768 then -32768
  else x

/-- Modelled from the spec: SATP_INT32(x) = MIN(x, INT32_MAX). -/
def SATP_INT32 (x : Int) : Int := min x 2147483647

/-- Modelled from the spec: SATM_INT32(x) = MAX(x, INT32_MIN). -/
def SATM_INT32 (x : Int) : Int := max x (-2147483648)

/-- Modelled from the spec: Q_SHIFT_RND(x, src_q, dst_q) =
((x >> (src_q - dst_q - 1)) + 1) >> 1, the rounding right shift. -/
def Q_SHIFT_RND (x : Int) (srcQ dstQ : Nat) : Int :=
  sar (sar x (srcQ - dstQ - 1) + 1) 1

/-- Modelled from the spec: Q_MULTSR_32X32(px, py, qx, qy, qp) multiplies
two fixed point values and rounds the product back to qp fractional bits:
((px * py >> (qx + qy - qp - 1)) + 1) >> 1. -/
def Q_MULTSR_32X32 (px py : Int) (qx qy qp : Nat) : Int :=
  sar (sar (px * py) (qx + qy - qp - 1) + 1) 1

/-! ## Complex fixed-point kernel (icomplex32.h / fft_32.c) -/

/-- struct icomplex32: ordered pair of Q1.31 fixed-point components. -/
structure icomplex32 where
  real : Int
  imag : Int
deriving DecidableEq, Repr

/-- The all-zero complex sample, also the default for out-of-range reads. -/
def czero : icomplex32 := ⟨0, 0⟩

/-- icomplex32_add: component-wise add without saturation. -/
def icomplex32_add (in1 in2 : icomplex32) : icomplex32 :=
  ⟨in1.real + in2.real, in1.imag + in2.imag⟩

/-- icomplex32_adds: component-wise add with int32 saturation. -/
def icomplex32_adds (in1 in2 : icomplex32) : icomplex32 :=
  ⟨sat_int32 (in1.real + in2.real), sat_int32 (in1.imag + in2.imag)⟩

/-- icomplex32_sub: component-wise subtract without saturation. -/
def icomplex32_sub (in1 in2 : icomplex32) : icomplex32 :=
  ⟨in1.real - in2.real, in1.imag - in2.imag⟩

/-- icomplex32_mul: Q1.31 complex multiply, 64-bit products shifted right
by 31 (arithmetic shift, i.e. floor). -/
def icomplex32_mul (in1 in2 : icomplex32) : icomplex32 :=
  ⟨sar (in1.real * in2.real - in1.imag * in2.imag) 31,
   sar (in1.real * in2.imag + in1.imag * in2.real) 31⟩

/-- icomplex32_conj: negate the imaginary part, saturating the positive
side (SATP_INT32(-1 * imag)). -/
def icomplex32_conj (comp : icomplex32) : icomplex32 :=
  ⟨comp.real, SATP_INT32 (-1 * comp.imag)⟩

/-- icomplex32_shift: shift both components n bits; n > 0 is a saturating
left shift (SATP_INT32(SATM_INT32(x << n))), n <= 0 an arithmetic right
shift by -n. -/
def icomplex32_shift (input : icomplex32) (n : Int) : icomplex32 :=
  if n > 0 then
    ⟨SATP_INT32 (SATM_INT32 (shl input.real n.toNat)),
     SATP_INT32 (SATM_INT32 (shl input.imag n.toNat))⟩
  else
    ⟨sar input.real (-n).toNat, sar input.imag (-n).toNat⟩

/-! ## Bit reversal table (fft_common.c, fft_plan_init_bit_reverse) -/

/-- One iteration of the bit-reverse loop body:
bit_reverse_idx[i] = (bit_reverse_idx[i >> 1] >> 1) | ((i & 1) << (len - 1)),
stored into a uint16_t (hence the mod 2^16). -/
def bitrev_body (len : Nat) (t : List Nat) (i : Nat) : List Nat :=
  t.set i ((t.getD (i / 2) 0 / 2 ||| (i % 2) <<< (len - 1)) % 65536)

/-- fft_plan_init_bit_reverse: builds the bit-reversal table of length
`size`; the table starts zeroed (the plan is allocated with mod_zalloc)
and the loop runs for i from 1 to size - 1. -/
def fft_plan_init_bit_reverse (size len : Nat) : List Nat :=
  (List.range' 1 (size - 1)).foldl (bitrev_body len) (List.replicate size 0)

/-- Mathematical form of the recurrence: brev 0 = 0 and
brev i = (brev (i/2) / 2) | ((i % 2) << (len - 1)) for i >= 1, with the
same uint16_t truncation as the table store. -/
def brev (len : Nat) : Nat → Nat
  | 0 => 0
  | (i + 1) => (brev len ((i + 1) / 2) / 2 ||| ((i + 1) % 2) <<< (len - 1)) % 65536
decreasing_by exact Nat.div_lt_self (Nat.succ_pos i) (by decide)

/-! ## 32-bit FFT engine (fft_32.c, fft_execute_32)

The engine is parameterised by the twiddle factor tables
`twr`/`twi` (twiddle_real_32 / twiddle_imag_32 from the coefficients
header, which is not among the provided sources); every theorem below
that uses the engine holds for every choice of tables. -/

/-- FFT_SIZE_MAX from fft.h. -/
def FFT_SIZE_MAX : Nat := 1024

/-- Step 1 of fft_execute_32: re-arrange the input in bit reverse order
shrinking the level to avoid overflow.  The source loop is
`for (i = 1; i < plan->size; ++i)` — it starts at index 1 (index 0 of the
output buffer is never written by this step). -/
def fft_permute_32 (size len : Nat) (bitrev : List Nat)
    (inb outb : List icomplex32) : List icomplex32 :=
  (List.range' 1 (size - 1)).foldl
    (fun o i => o.set (bitrev.getD i 0)
      (icomplex32_shift (inb.getD i czero) (-(len : Int)))) outb

/-- Innermost butterfly body of fft_execute_32 for one `j`:
index = i * j, top = k + j, bottom = top + n; the accumulator is
twiddle * bottom, the new top is top + acc and the new bottom top - acc. -/
def fft_butterfly_j (twr twi : Nat → Int) (i k n : Nat)
    (o : List icomplex32) (j : Nat) : List icomplex32 :=
  let index := i * j
  let top := k + j
  let bottom := top + n
  let tmp1 : icomplex32 := ⟨twr index, twi index⟩
  let tmp2 := icomplex32_mul tmp1 (o.getD bottom czero)
  let t := o.getD top czero
  (o.set top (icomplex32_add t tmp2)).set bottom (icomplex32_sub t tmp2)

/-- One stage (`depth`) of step 2 of fft_execute_32: group size m = 2^depth,
half group n = m >> 1, twiddle stride i = FFT_SIZE_MAX >> depth; the outer
loop takes k = 0, m, 2m, ... below `size`, the inner loop j = 0..n-1. -/
def fft_butterfly_stage (twr twi : Nat → Int) (size : Nat)
    (o : List icomplex32) (depth : Nat) : List icomplex32 :=
  let m := 2 ^ depth
  let n := m / 2
  let i := FFT_SIZE_MAX / 2 ^ depth
  (List.range' 0 ((size + m - 1) / m) m).foldl
    (fun o1 k => (List.range n).foldl (fft_butterfly_j twr twi i k n) o1) o

/-- fft_execute_32: for ifft the input is first conjugated in place; then
the permute step writes into the output buffer, the iterative butterfly
stages run for depth = 1..len, and for ifft every output sample is finally
shifted left by len bits.  `outb` is the prior content of the output
buffer (the callers in the sources clear it with bzero). -/
def fft_execute_32 (size len : Nat) (bitrev : List Nat)
    (twr twi : Nat → Int) (ifft : Bool)
    (inb outb : List icomplex32) : List icomplex32 :=
  let inb1 := if ifft then inb.map icomplex32_conj else inb
  let o1 := fft_permute_32 size len bitrev inb1 outb
  let o2 := (List.range' 1 len).foldl (fft_butterfly_stage twr twi size) o1
  if ifft then o2.map (fun c => icomplex32_shift c (len : Int)) else o2

/-! ## Composite-3 FFT (fft_common.c: dft3_32, fft_multi_execute_32) -/

/-- DFT3_COEFR: int32(-0.5 * 2^31). -/
def DFT3_COEFR : Int := -1073741824

/-- DFT3_COEFI: int32(sqrt(3) / 2 * 2^31). -/
def DFT3_COEFI : Int := 1859775393

/-- DFT3_SCALE: int32(1/3 * 2^31). -/
def DFT3_SCALE : Int := 715827883

/-- dft3_32: 3-point DFT butterfly.  The three inputs are pre-scaled by
DFT3_SCALE (1/3) with a rounding Q1.31 multiply, then combined with the
cube roots of unity c0 = -0.5 - i*sqrt(3)/2 and c1 = -0.5 + i*sqrt(3)/2
using saturating adds; returns (y0, y1, y2). -/
def dft3_32 (x0 x1 x2 : icomplex32) : icomplex32 × icomplex32 × icomplex32 :=
  let c0 : icomplex32 := ⟨DFT3_COEFR, -DFT3_COEFI⟩
  let c1 : icomplex32 := ⟨DFT3_COEFR, DFT3_COEFI⟩
  let s : icomplex32 → icomplex32 := fun x =>
    ⟨Q_MULTSR_32X32 x.real DFT3_SCALE 31 31 31,
     Q_MULTSR_32X32 x.imag DFT3_SCALE 31 31 31⟩
  let z0 := s x0
  let z1 := s x1
  let z2 := s x2
  let y0 := icomplex32_adds z2 (icomplex32_adds z0 z1)
  let y1 := icomplex32_adds z0 (icomplex32_adds (icomplex32_mul c0 z1) (icomplex32_mul c1 z2))
  let y2 := icomplex32_adds z0 (icomplex32_adds (icomplex32_mul c1 z1) (icomplex32_mul c0 z2))
  (y0, y1, y2)

/-- The num_ffts == 3 path of fft_multi_execute_32 (fft_common.c) up to and
including the radix-3 combine, before the inverse-direction
post-processing: conjugate the input for ifft, de-interleave sample
3*i + j to sub-sequence j position i, run the three sub-FFTs in the
forward direction over cleared scratch output buffers, multiply
sub-transforms 1 and 2 by the multi twiddle factors at stride
j * i * (mtwSize / 2 / fs), and combine same-index outputs with dft3_32
into the three size-fs slices of the output buffer.  `mtwr`/`mtwi` are
multi_twiddle_real_32 / multi_twiddle_imag_32 and `mtwSize` is
FFT_MULTI_TWIDDLE_SIZE (from the coefficients header, not among the
provided sources; the theorems hold for every table and size). -/
def fft_multi_combine_32 (fs len : Nat) (bitrev : List Nat)
    (twr twi mtwr mtwi : Nat → Int) (mtwSize : Nat) (ifft : Bool)
    (inb outb : List icomplex32) : List icomplex32 :=
  let inb1 := if ifft then inb.map icomplex32_conj else inb
  let tmpI : Nat → List icomplex32 := fun j =>
    (List.range fs).map (fun i => inb1.getD (3 * i + j) czero)
  let tmpO : Nat → List icomplex32 := fun j =>
    fft_execute_32 fs len bitrev twr twi false (tmpI j) (List.replicate fs czero)
  let m := mtwSize / 2 / fs
  let tmpO1 : Nat → List icomplex32 := fun j =>
    if j = 0 then tmpO 0
    else (List.range fs).map (fun i =>
      icomplex32_mul ⟨mtwr (j * i * m), mtwi (j * i * m)⟩ ((tmpO j).getD i czero))
  (List.range fs).foldl (fun o i =>
    let y := dft3_32 ((tmpO1 0).getD i czero) ((tmpO1 1).getD i czero) ((tmpO1 2).getD i czero)
    ((o.set i y.1).set (i + fs) y.2.1).set (i + 2 * fs) y.2.2) outb

/-- Body of the inverse-direction post loop of fft_multi_execute_32
(fft_common.c) at output index i: negate the imaginary part in place,
shift both parts left by the sub-plan length (plan->fft_plan[0]->len)
with icomplex32_shift, then multiply both parts by 3 with int32
saturation — three sequential in-place writes to outb[i]. -/
def ifft_scale_body (len : Nat) (o : List icomplex32) (i : Nat) : List icomplex32 :=
  let o1 := o.set i ⟨(o.getD i czero).real, -(o.getD i czero).imag⟩
  let o2 := o1.set i (icomplex32_shift (o1.getD i czero) (len : Int))
  o2.set i ⟨sat_int32 ((o2.getD i czero).real * 3),
            sat_int32 ((o2.getD i czero).imag * 3)⟩

/-- The num_ffts == 3 path of fft_multi_execute_32 (fft_common.c): the
combine stage above followed, for ifft only, by the in-place post loop
over all total_size = 3 * fs output samples. -/
def fft_multi_execute_32_c3 (fs len : Nat) (bitrev : List Nat)
    (twr twi mtwr mtwi : Nat → Int) (mtwSize : Nat) (ifft : Bool)
    (inb outb : List icomplex32) : List icomplex32 :=
  let comb := fft_multi_combine_32 fs len bitrev twr twi mtwr mtwi mtwSize ifft inb outb
  if ifft then (List.range (3 * fs)).foldl (ifft_scale_body len) comb
  else comb

/-- The inverse-direction post-processing of one output sample as the
specification describes it: negate the imaginary part, apply the
headroom-restoring left shift by the sub-FFT length, then multiply both
real and imaginary part by 3 with saturation to the int32 range. -/
def c6_post (len : Nat) (c : icomplex32) : icomplex32 :=
  let c1 : icomplex32 := ⟨c.real, -c.imag⟩
  let c2 := icomplex32_shift c1 (len : Int)
  ⟨sat_int32 (c2.real * 3), sat_int32 (c2.imag * 3)⟩

/-! ## Polar conversion (icomplex32.h: sqrt_int32, icomplex32_to_polar) -/

/-- struct ipolar32: magnitude in Q2.30, angle in Q3.29. -/
structure ipolar32 where
  magnitude : Int
  angle : Int
deriving DecidableEq, Repr

/-- sqrt_int32_lut from icomplex32.h. -/
def sqrt_int32_lut : List Nat :=
  [268435456, 379625062, 464943848, 536870912, 600239927, 657529896, 710213460,
   759250125, 805306368, 848867446, 890299688, 929887697, 967857801, 1004393507,
   1039646051, 1073741824, 1106787739, 1138875187, 1170083026, 1200479854,
   1230125796, 1259073893, 1287371222, 1315059792, 1342177280, 1368757628,
   1394831545, 1420426919, 1445569171, 1470281545, 1494585366, 1518500250]

/-- Conversion of a uint32 bit pattern to the int32 it denotes
(the final (int32_t)x cast in sqrt_int32). -/
def uint32_to_int32 (x : Nat) : Int :=
  if x % 4294967296 < 2147483648 then (x % 4294967296 : Int)
  else (x % 4294967296 : Int) - 4294967296

/-- One Newton iteration of sqrt_int32:
x = (uint32_t)(((n_shifted / x + x) + 1) >> 1), in uint32/uint64
arithmetic (unsigned division; the cast truncates mod 2^32). -/
def sqrt_iter (n_shifted x : Nat) : Nat :=
  ((n_shifted / x + x + 1) / 2) % 4294967296

/-- Floor base-2 logarithm by structural recursion on a fuel bound (32
steps suffice for any uint32 value); used to express __builtin_clz. -/
def log2_aux : Nat → Nat → Nat
  | 0, _ => 0
  | fuel + 1, n => if n ≥ 2 then log2_aux fuel (n / 2) + 1 else 0

/-- sqrt_int32 from icomplex32.h: inputs below 1 return 0; otherwise the
argument is normalised by an even left shift, a 32-entry lookup table
seeds three Newton iterations in Q2.30, and the result is denormalised.
__builtin_clz on the (positive) int32 argument is 31 - floor(log2 n). -/
def sqrt_int32 (n : Int) : Int :=
  if n < 1 then 0
  else
    let nn := n.toNat
    let clz := 31 - log2_aux 32 nn
    let div_shift := (clz - 1) / 2
    let mul_shift := div_shift * 2
    let n1 := nn * 2 ^ mul_shift
    let n_shifted := n1 * 2 ^ 30
    let x0 := sqrt_int32_lut.getD (n1 / 2 ^ 26) 0
    let x3 := sqrt_iter n_shifted (sqrt_iter n_shifted (sqrt_iter n_shifted x0))
    uint32_to_int32 (x3 / 2 ^ div_shift)

/-- icomplex32_to_polar, parameterised by the fixed-point arc cosine
acos_fixed_32b (sof/math/trig.h, not among the provided sources; the
theorems hold for every choice of that function).  The squared magnitude
is Q2.62, rounded to Q2.30 for the square root; when the magnitude is
zero the angle is set to 0 and the function returns; otherwise the angle
is acos((real << 29) / magnitude) (64-bit division truncating toward
zero, as C does), negated when the imaginary part is negative. -/
def icomplex32_to_polar (acos : Int → Int) (c : icomplex32) : ipolar32 :=
  let squares_sum := c.real * c.real + c.imag * c.imag
  let sqrt_arg := Q_SHIFT_RND squares_sum 62 30
  let magnitude := sqrt_int32 sqrt_arg
  if magnitude = 0 then ⟨magnitude, 0⟩
  else
    let acos_arg := sat_int32 (Int.tdiv (shl c.real 29) magnitude)
    let acos_val := acos acos_arg
    ⟨magnitude, if c.imag < 0 then -acos_val else acos_val⟩

/-! ## Window dispatch (stft_process_setup.c: stft_process_get_window) -/

/-- Window type codes of enum sof_stft_process_fft_window_type. -/
def STFT_RECTANGULAR_WINDOW : Int := 0

/-- STFT_BLACKMAN_WINDOW enum code. -/
def STFT_BLACKMAN_WINDOW : Int := 1

/-- STFT_HAMMING_WINDOW enum code. -/
def STFT_HAMMING_WINDOW : Int := 2

/-- STFT_HANN_WINDOW enum code. -/
def STFT_HANN_WINDOW : Int := 3

/-- STFT_POVEY_WINDOW enum code. -/
def STFT_POVEY_WINDOW : Int := 4

/-- STFT_BLACKMAN_A0 = Q_CONVERT_FLOAT(0.42, 15). -/
def STFT_BLACKMAN_A0 : Int := 13763

/-- Which window generator stft_process_get_window invokes to fill the
window coefficient table of length fft_size (win_rectangular_16b,
win_blackman_16b with the STFT_BLACKMAN_A0 coefficient, win_hamming_16b,
win_povey_16b; the generators live in sof/math/window.c, outside the
provided sources, so only the selection is embedded). -/
inductive window_sel where
  | rect : window_sel
  | blackman : Int → window_sel
  | hamming : window_sel
  | povey : window_sel
deriving DecidableEq, Repr

/-- stft_process_get_window: the switch over the window name.  The source
has cases for STFT_RECTANGULAR_WINDOW, STFT_BLACKMAN_WINDOW,
STFT_HAMMING_WINDOW and STFT_POVEY_WINDOW; every other value, including
STFT_HANN_WINDOW = 3, falls to the default branch (none). -/
def stft_process_get_window (name : Int) : Option window_sel :=
  if name = STFT_RECTANGULAR_WINDOW then some .rect
  else if name = STFT_BLACKMAN_WINDOW then some (.blackman STFT_BLACKMAN_A0)
  else if name = STFT_HAMMING_WINDOW then some .hamming
  else if name = STFT_POVEY_WINDOW then some .povey
  else none

/-- Return status of stft_process_get_window: 0 on a handled case,
-EINVAL (= -22) from the default branch. -/
def stft_process_get_window_status (name : Int) : Int :=
  match stft_process_get_window name with
  | some _ => 0
  | none => -22

/-! ## Spectrum symmetry (phase_vocoder_common.c: stft_apply_fft_symmetry) -/

/-- Body of the stft_apply_fft_symmetry loop at index i: with
k = (2 * half_fft_size - 2) - i, set out[i].real = out[k].real and
out[i].imag = -out[k].imag, in place. -/
def sym_body (half : Nat) (o : List icomplex32) (i : Nat) : List icomplex32 :=
  o.set i ⟨(o.getD (2 * half - 2 - i) czero).real, -((o.getD (2 * half - 2 - i) czero).imag)⟩

/-- stft_apply_fft_symmetry: the loop runs i from half_fft_size to
fft_size - 1 in increasing order. -/
def stft_apply_fft_symmetry (half size : Nat) (out : List icomplex32) : List icomplex32 :=
  (List.range' half (size - half)).foldl (sym_body half) out

/-! ## Circular sample buffer (stft_process.h, stft_process_setup.c) -/

/-- struct stft_process_buffer, with the pointers represented as sample
offsets from the base address `addr` (so `addr` is offset 0 and
`end_addr` is offset s_length). -/
structure stft_process_buffer where
  r_ptr : Nat
  w_ptr : Nat
  s_avail : Int
  s_free : Int
  s_length : Nat
  data : List Int
deriving DecidableEq, Repr

/-- stft_process_init_buffer: cursors to base, s_free = size, s_avail = 0,
s_length = size.  The backing storage is whatever the caller allocated. -/
def stft_process_init_buffer (size : Nat) (data : List Int) : stft_process_buffer :=
  ⟨0, 0, 0, (size : Int), size, data⟩

/-- stft_process_buffer_samples_without_wrap: end_addr - ptr in samples. -/
def stft_process_buffer_samples_without_wrap (buf : stft_process_buffer) (p : Nat) : Nat :=
  buf.s_length - p

/-- stft_process_buffer_wrap: subtract s_length once the pointer reaches
end_addr. -/
def stft_process_buffer_wrap (buf : stft_process_buffer) (p : Nat) : Nat :=
  if p ≥ buf.s_length then p - buf.s_length else p

/-! ## Reader-side copy loops (stft_process-generic.c) -/

/-- Chunked copy loop of stft_process_fill_prev_samples: while
copied < length, copy n = min(samples_without_wrap(r), length - copied)
samples contiguously (memcpy), advance and wrap r, add n to copied.
The fuel argument makes the recursion total; `none` means the loop would
still be running after `fuel` chunk iterations. -/
def fill_prev_go (len : Nat) (data : List Int) (length : Nat) :
    Nat → Nat → Nat → List Int → Option (List Int × Nat × Nat)
  | fuel, copied, r, acc =>
    if copied < length then
      match fuel with
      | 0 => none
      | fuel' + 1 =>
        let nmax := length - copied
        let n := min (len - r) nmax
        let acc' := acc ++ (data.drop r).take n
        let r' := if r + n ≥ len then r + n - len else r + n
        fill_prev_go len data length fuel' (copied + n) r' acc'
    else some (acc, r, copied)

/-- stft_process_fill_prev_samples: copy prev_data_length samples from the
circular buffer read side into prev_data, then decrement s_avail and
increment s_free by the copied count and store the wrapped read pointer. -/
def stft_process_fill_prev_samples (buf : stft_process_buffer)
    (prev_data_length fuel : Nat) : Option (List Int × stft_process_buffer) :=
  match fill_prev_go buf.s_length buf.data prev_data_length fuel 0 buf.r_ptr [] with
  | none => none
  | some (p, r, copied) =>
    some (p, { buf with r_ptr := r,
                        s_avail := buf.s_avail - copied,
                        s_free := buf.s_free + copied })

/-- Chunked copy loop of stft_process_fill_fft_buffer: while copied <
fft_hop_size, copy n = min(samples_without_wrap(r), hop - copied) samples
one at a time into the real parts of fft_buf at increasing idx, advance
and wrap r.  fft_buf entries are (real, imag) pairs. -/
def fill_fft_go (len : Nat) (data : List Int) (hop : Nat) :
    Nat → Nat → Nat → Nat → List (Int × Int) → Option (List (Int × Int) × Nat × Nat)
  | fuel, copied, r, idx, fb =>
    if copied < hop then
      match fuel with
      | 0 => none
      | fuel' + 1 =>
        let n := min (len - r) (hop - copied)
        let fb' := (List.range n).foldl
          (fun fb2 j => fb2.set (idx + j) (data.getD (r + j) 0, (fb2.getD (idx + j) (0, 0)).2)) fb
        let r' := if r + n ≥ len then r + n - len else r + n
        fill_fft_go len data hop fuel' (copied + n) r' (idx + n) fb'
    else some (fb, r, copied)

/-- stft_process_fill_fft_buffer: copy the overlapped prev_data samples
into the real parts of fft_buf starting at fft_fill_start_idx (imaginary
parts untouched), copy fft_hop_size fresh samples from the circular
buffer after them, update s_avail/s_free/r_ptr by the copied count, and
re-read the last prev_data-sized stretch of the just-filled frame back
into prev_data for the next hop. -/
def stft_process_fill_fft_buffer (buf : stft_process_buffer)
    (prev_data : List Int) (fftBuf : List (Int × Int))
    (fill_start_idx hop fuel : Nat) :
    Option (List (Int × Int) × List Int × stft_process_buffer) :=
  let fb1 := (List.range prev_data.length).foldl
    (fun fb j => fb.set (fill_start_idx + j)
      (prev_data.getD j 0, (fb.getD (fill_start_idx + j) (0, 0)).2)) fftBuf
  match fill_fft_go buf.s_length buf.data hop fuel 0 buf.r_ptr
      (fill_start_idx + prev_data.length) fb1 with
  | none => none
  | some (fb2, r, copied) =>
    let buf' := { buf with r_ptr := r,
                           s_avail := buf.s_avail - copied,
                           s_free := buf.s_free + copied }
    let prev' := (List.range prev_data.length).map
      (fun j => (fb2.getD (fill_start_idx + hop + j) (0, 0)).1)
    some (fb2, prev', buf')

/-! ## Writer side (stft_process-generic.c: stft_process_source_s16) -/

/-- Parameters of stft_process_source_s16 that the loop reads but never
writes: channel layout, the source circular buffer contents and size (in
s16 samples, as returned by source_get_data_s16), the pre-emphasis
configuration and the destination buffer length. -/
structure src_s16_params where
  channels : Nat
  source_channel : Nat
  x_size : Nat
  srcData : List Int
  emph_enable : Bool
  emph_coef : Int
  bufLen : Nat
deriving Repr

/-- Mutable state of the stft_process_source_s16 loop: source cursor x
(sample offset), destination cursor w (sample offset), the loop control
variable frames_left, the chunk countdown frames, the pre-emphasis delay
line and the destination buffer contents. -/
structure src_s16_state where
  x : Nat
  w : Nat
  frames_left : Int
  frames : Int
  emph_delay : Int
  bufData : List Int
deriving Repr

/-- Inner per-sample copy of stft_process_source_s16 run n times: read the
selected channel, optionally apply the one-pole pre-emphasis
(Q1.15 x Q1.15 -> Q2.30, rounded back to Q1.15 with int16 saturation),
store at w, advance x by the channel count and w by one. -/
def src_copy (p : src_s16_params) : Nat → src_s16_state → src_s16_state
  | 0, st => st
  | n + 1, st =>
    let inv := p.srcData.getD (st.x + p.source_channel) 0
    let val := if p.emph_enable then
        sat_int16 (Q_SHIFT_RND (st.emph_delay * p.emph_coef + shl inv 15) 30 15)
      else inv
    let delay' := if p.emph_enable then inv else st.emph_delay
    src_copy p n { st with x := st.x + p.channels,
                           w := st.w + 1,
                           emph_delay := delay',
                           bufData := st.bufData.set st.w val }

/-- One iteration of the `while (frames_left)` loop body of
stft_process_source_s16: n = min((x_end - x) / channels,
samples_without_wrap(w), frames); copy n frames; wrap x and w; subtract n
from frames.  Note the body never modifies frames_left. -/
def src_s16_body (p : src_s16_params) (st : src_s16_state) : src_s16_state :=
  let n1 := Int.tdiv ((p.x_size : Int) - st.x) p.channels
  let n2 := (p.bufLen : Int) - st.w
  let n := min (min n1 n2) st.frames
  let st1 := src_copy p n.toNat st
  let st2 := { st1 with
    x := if st1.x ≥ p.x_size then st1.x - p.x_size else st1.x,
    w := if st1.w ≥ p.bufLen then st1.w - p.bufLen else st1.w }
  { st2 with frames := st2.frames - n }

/-- The `while (frames_left)` loop with fuel; `none` means the loop is
still running after `fuel` iterations. -/
def src_s16_loop (p : src_s16_params) : Nat → src_s16_state → Option src_s16_state
  | fuel, st =>
    if st.frames_left = 0 then some st
    else
      match fuel with
      | 0 => none
      | fuel' + 1 => src_s16_loop p fuel' (src_s16_body p st)

/-- stft_process_source_s16 after source_get_data_s16 succeeded: run the
copy loop from source offset x0, then account the consumed samples:
s_avail += frames, s_free -= frames, w_ptr = w — with `frames` being the
mutated loop variable at loop exit, exactly as the source does. -/
def stft_process_source_s16 (p : src_s16_params) (buf : stft_process_buffer)
    (frames : Int) (x0 : Nat) (delay0 : Int) (fuel : Nat) :
    Option stft_process_buffer :=
  match src_s16_loop p fuel ⟨x0, buf.w_ptr, frames, frames, delay0, buf.data⟩ with
  | none => none
  | some st =>
    some { buf with w_ptr := st.w,
                    s_avail := buf.s_avail + st.frames,
                    s_free := buf.s_free - st.frames,
                    data := st.bufData }

/-! ## STFT control flow (stft_process_common.c: stft_process_stft_process)

The embedding tracks the control state the claims are about: the two
flags, the circular buffer bookkeeping, prev_data and the produced
cepstral-coefficient count.  The per-hop numeric processing between
stft_process_fill_fft_buffer and the coefficient count update
(normalize, window, FFT, Mel filterbank, DCT, lifter) writes only the
FFT/Mel scratch buffers and never touches these fields in the source, so
it has no effect on the embedded state. -/

/-- Parameters of the STFT processing state that the control flow reads:
FFT frame size, padded size, hop size, overlap size, fill start index and
the per-hop cepstral coefficient count (state->dct.num_out). -/
structure stft_params where
  fft_size : Int
  fft_padded_size : Nat
  fft_hop_size : Int
  prev_data_size : Nat
  fill_start_idx : Nat
  num_out : Int
deriving Repr

/-- Control state of stft_process_stft_process. -/
structure stft_state where
  waiting_fill : Bool
  prev_samples_valid : Bool
  buf : stft_process_buffer
  prev_data : List Int
deriving Repr

/-- The per-hop loop of stft_process_stft_process run k times: each hop
clears the fft_buf scratch (bzero), refills it consuming one hop of
samples via stft_process_fill_fft_buffer, and accounts num_out produced
cepstral coefficients. -/
def stft_hops (P : stft_params) : Nat → stft_state → Int → Option (stft_state × Int)
  | 0, s, cc => some (s, cc)
  | k + 1, s, cc =>
    let fb0 : List (Int × Int) := List.replicate P.fft_padded_size (0, 0)
    match stft_process_fill_fft_buffer s.buf s.prev_data fb0 P.fill_start_idx
        P.fft_hop_size.toNat (P.fft_hop_size.toNat + 1) with
    | none => none
    | some (_, pd, buf') =>
      stft_hops P k { s with buf := buf', prev_data := pd } (cc + P.num_out)

/-- Phases 2 and 3 of stft_process_stft_process: fill prev_data once
(first call after warm-up), then run s_avail / fft_hop_size hops. -/
def stft_phase2 (P : stft_params) (s : stft_state) : Option (stft_state × Int) :=
  let step1 : Option stft_state :=
    if s.prev_samples_valid = false then
      match stft_process_fill_prev_samples s.buf P.prev_data_size (P.prev_data_size + 1) with
      | none => none
      | some (pd, buf') =>
        some { s with prev_samples_valid := true, buf := buf', prev_data := pd }
    else some s
  match step1 with
  | none => none
  | some s2 =>
    let m := Int.tdiv s2.buf.s_avail P.fft_hop_size
    stft_hops P m.toNat s2 0

/-- stft_process_stft_process: phase 1 returns a zero coefficient count
with the state untouched while waiting_fill is set and fewer than
fft_size samples are available; the first time s_avail reaches fft_size
waiting_fill is cleared and processing falls through to phase 2. -/
def stft_process_stft_process (P : stft_params) (s : stft_state) :
    Option (stft_state × Int) :=
  if s.waiting_fill = true then
    if s.buf.s_avail < P.fft_size then some (s, 0)
    else stft_phase2 P { s with waiting_fill := false }
  else stft_phase2 P s

/-! ## Concrete inputs used by the counterexample evaluations -/

/-- The concrete failing input for the permutation step: a single
non-zero real sample at index 0 of a size-4 transform. -/
def c3_input : List icomplex32 := [⟨268435456, 0⟩, czero, czero, czero]

/-- The round-trip failing input: a real-only vector with a half-scale
Q1.31 sample at index 0 of a size-4 transform. -/
def c1_input : List icomplex32 := [⟨1073741824, 0⟩, czero, czero, czero]

/-- Forward transform then inverse transform of c1_input on a size-4
plan with zero-initialised output buffers (as the callers in the sources
arrange with bzero), for a given twiddle table. -/
def c1_roundtrip (twr twi : Nat → Int) : List icomplex32 :=
  fft_execute_32 4 2 (fft_plan_init_bit_reverse 4 2) twr twi true
    (fft_execute_32 4 2 (fft_plan_init_bit_reverse 4 2) twr twi false c1_input
      (List.replicate 4 czero))
    (List.replicate 4 czero)

/-- Invariant of the circular sample buffer: the available and free
counters always sum to the capacity, and both cursors lie inside the
allocation (a cursor that reached end_addr has been wrapped back). -/
def buf_inv (b : stft_process_buffer) : Prop :=
  b.s_avail + b.s_free = (b.s_length : Int) ∧
  b.r_ptr < b.s_length ∧ b.w_ptr < b.s_length

instance (b : stft_process_buffer) : Decidable (buf_inv b) := by
  unfold buf_inv; infer_instance

/-! ## Generic list helpers -/

/-- A fold whose step fixes the accumulator leaves it unchanged. -/
theorem foldl_const {α β : Type} (f : α → β → α) (a : α)
    (h : ∀ b, f a b = a) : ∀ l : List β, l.foldl f a = a
  | [] => rfl
  | b :: l => by rw [List.foldl_cons, h b]; exact foldl_const f a h l

/-- Setting an entry of a replicated list to the replicated value is a
no-op. -/
theorem replicate_set_self {α : Type} (a : α) :
    ∀ (n i : Nat), (List.replicate n a).set i a = List.replicate n a
  | 0, _ => rfl
  | _ + 1, 0 => rfl
  | n + 1, i + 1 => by
    simp only [List.replicate_succ, List.set_cons_succ]
    rw [replicate_set_self a n i]

/-- getD on a replicated list with the replicated default. -/
theorem getD_replicate_self {α : Type} (a : α) :
    ∀ (n i : Nat), (List.replicate n a).getD i a = a
  | 0, _ => rfl
  | _ + 1, 0 => rfl
  | n + 1, i + 1 => by
    simp only [List.replicate_succ, List.getD_cons_succ]
    exact getD_replicate_self a n i

/-! ## Zero preservation through the butterfly stages -/

/-- Multiplying any twiddle factor by the zero sample gives zero. -/
theorem icomplex32_mul_czero (t : icomplex32) : icomplex32_mul t czero = czero := by
  simp [icomplex32_mul, czero, sar]

/-- The innermost butterfly body maps the all-zero buffer to itself, for
every twiddle table and every index. -/
theorem fft_butterfly_j_zero (twr twi : Nat → Int) (i k n sz j : Nat) :
    fft_butterfly_j twr twi i k n (List.replicate sz czero) j = List.replicate sz czero := by
  unfold fft_butterfly_j
  simp only [getD_replicate_self, icomplex32_mul_czero]
  have hadd : icomplex32_add czero czero = czero := by decide
  have hsub : icomplex32_sub czero czero = czero := by decide
  rw [hadd, hsub, replicate_set_self, replicate_set_self]

/-- A whole butterfly stage maps the all-zero buffer to itself. -/
theorem fft_butterfly_stage_zero (twr twi : Nat → Int) (size sz depth : Nat) :
    fft_butterfly_stage twr twi size (List.replicate sz czero) depth =
      List.replicate sz czero := by
  simp only [fft_butterfly_stage]
  refine foldl_const _ _ (fun k => ?_) _
  exact foldl_const _ _ (fun j => fft_butterfly_j_zero _ _ _ _ _ _ _) _

/-! ## Claim C3 -/

/-- C3: the claim states that for every index i in [0, size) the permute
step of fft_execute_32 stores the input sample right-shifted by
log2(size) at the bit-reversed index, in particular that output index 0
receives input sample 0 shifted.  The source loop starts at i = 1, so on
a zeroed output buffer of a size-4 plan the permute step leaves the
all-zero buffer: output index 0 stays zero although input sample 0
shifted right by 2 is 2^26, contradicting the claim at index 0. -/
theorem c3_permute_skips_index_zero :
    fft_permute_32 4 2 (fft_plan_init_bit_reverse 4 2) c3_input
        (List.replicate 4 czero) = List.replicate 4 czero ∧
    (fft_permute_32 4 2 (fft_plan_init_bit_reverse 4 2) c3_input
        (List.replicate 4 czero)).getD 0 czero = czero ∧
    icomplex32_shift (c3_input.getD 0 czero) (-(2 : Int)) = ⟨67108864, 0⟩ := by
  refine ⟨by decide, by decide, by decide⟩

/-! ## Claim C1 -/

/-- C1: the claim states IFFT(FFT(x)) is approximately x within a bounded
fixed-point error for every input.  Because the permute step never writes
output index 0, the whole contribution of x[0] is dropped: for the
real-only input (0.5, 0, 0, 0) the forward transform produces the
all-zero spectrum and the inverse transform of that is the all-zero
vector, for every twiddle table, so the round trip loses the full
half-scale sample 2^30 at index 0 — not a bounded quantization-level
error. -/
theorem c1_roundtrip_loses_input (twr twi : Nat → Int) :
    c1_roundtrip twr twi = List.replicate 4 czero ∧
    (c1_input.getD 0 czero).real - ((c1_roundtrip twr twi).getD 0 czero).real =
      1073741824 := by
  have hperm : fft_permute_32 4 2 (fft_plan_init_bit_reverse 4 2) c1_input
      (List.replicate 4 czero) = List.replicate 4 czero := by decide
  have hf : fft_execute_32 4 2 (fft_plan_init_bit_reverse 4 2) twr twi false c1_input
      (List.replicate 4 czero) = List.replicate 4 czero := by
    unfold fft_execute_32
    simp only [if_neg (Bool.false_ne_true), Bool.false_eq_true, if_false, hperm]
    exact foldl_const _ _ (fun d => fft_butterfly_stage_zero twr twi 4 4 d) _
  have hmapconj : (List.replicate 4 czero).map icomplex32_conj = List.replicate 4 czero := by
    decide
  have hperm0 : fft_permute_32 4 2 (fft_plan_init_bit_reverse 4 2) (List.replicate 4 czero)
      (List.replicate 4 czero) = List.replicate 4 czero := by decide
  have hi : fft_execute_32 4 2 (fft_plan_init_bit_reverse 4 2) twr twi true
      (List.replicate 4 czero) (List.replicate 4 czero) = List.replicate 4 czero := by
    unfold fft_execute_32
    simp only [if_true, hmapconj, hperm0]
    rw [foldl_const _ _ (fun d => fft_butterfly_stage_zero twr twi 4 4 d) _]
    decide
  have hrt : c1_roundtrip twr twi = List.replicate 4 czero := by
    unfold c1_roundtrip
    rw [hf, hi]
  exact ⟨hrt, by rw [hrt]; decide⟩

/-! ## Claim C7 -/

/-- C7 counterexample: STFT_HANN_WINDOW = 3 is a value of the
configuration enum, yet stft_process_get_window has no case for it: the
switch falls to the default branch and the setup fails with -EINVAL,
contradicting the claim that all five enum window types succeed. -/
theorem c7_hann_rejected :
    STFT_HANN_WINDOW = 3 ∧
    stft_process_get_window STFT_HANN_WINDOW = none ∧
    stft_process_get_window_status STFT_HANN_WINDOW = -22 := by
  refine ⟨rfl, by decide, by decide⟩

/-- C7 amended: window setup succeeds (status 0) exactly for the four
handled enum values — rectangular, Blackman (with the STFT_BLACKMAN_A0
coefficient), Hamming and Povey — and every other value, the in-enum
Hann type included, yields -EINVAL. -/
theorem c7_window_dispatch (name : Int)
    (h0 : name ≠ STFT_RECTANGULAR_WINDOW) (h1 : name ≠ STFT_BLACKMAN_WINDOW)
    (h2 : name ≠ STFT_HAMMING_WINDOW) (h4 : name ≠ STFT_POVEY_WINDOW) :
    stft_process_get_window STFT_RECTANGULAR_WINDOW = some .rect ∧
    stft_process_get_window STFT_BLACKMAN_WINDOW = some (.blackman STFT_BLACKMAN_A0) ∧
    stft_process_get_window STFT_HAMMING_WINDOW = some .hamming ∧
    stft_process_get_window STFT_POVEY_WINDOW = some .povey ∧
    stft_process_get_window_status STFT_RECTANGULAR_WINDOW = 0 ∧
    stft_process_get_window_status STFT_BLACKMAN_WINDOW = 0 ∧
    stft_process_get_window_status STFT_HAMMING_WINDOW = 0 ∧
    stft_process_get_window_status STFT_POVEY_WINDOW = 0 ∧
    stft_process_get_window name = none ∧
    stft_process_get_window_status name = -22 := by
  have hn : stft_process_get_window name = none := by
    unfold stft_process_get_window
    rw [if_neg h0, if_neg h1, if_neg h2, if_neg h4]
  refine ⟨by decide, by decide, by decide, by decide, by decide, by decide, by decide,
    by decide, hn, ?_⟩
  unfold stft_process_get_window_status
  rw [hn]

/-- C7 witness: the dispatch theorem applied at the concrete out-of-table
value 3 (the Hann code). -/
theorem c7_window_dispatch_witness :
    stft_process_get_window (3 : Int) = none ∧
    stft_process_get_window_status (3 : Int) = -22 := by
  have h := c7_window_dispatch 3 (by decide) (by decide) (by decide) (by decide)
  exact ⟨h.2.2.2.2.2.2.2.2.1, h.2.2.2.2.2.2.2.2.2⟩

/-! ## Claim C10 -/

/-- C10: icomplex32_to_polar never divides by a zero magnitude: whenever
the computed fixed-point magnitude is zero the output is exactly
(magnitude 0, angle 0) — the early return — and the division
(real << 29) / magnitude in the angle computation is only performed with
the non-zero magnitude as the divisor, for every model of the fixed-point
arc cosine. -/
theorem c10_to_polar_zero_guard (acos : Int → Int) (c : icomplex32) :
    ((icomplex32_to_polar acos c).magnitude = 0 →
      icomplex32_to_polar acos c = ⟨0, 0⟩) ∧
    ((icomplex32_to_polar acos c).magnitude ≠ 0 →
      (icomplex32_to_polar acos c).magnitude =
        sqrt_int32 (Q_SHIFT_RND (c.real * c.real + c.imag * c.imag) 62 30) ∧
      (icomplex32_to_polar acos c).angle =
        (if c.imag < 0 then
          -(acos (sat_int32 (Int.tdiv (shl c.real 29)
            ((icomplex32_to_polar acos c).magnitude))))
         else
          acos (sat_int32 (Int.tdiv (shl c.real 29)
            ((icomplex32_to_polar acos c).magnitude))))) := by
  unfold icomplex32_to_polar
  by_cases h : sqrt_int32 (Q_SHIFT_RND (c.real * c.real + c.imag * c.imag) 62 30) = 0
  · rw [if_pos h]
    exact ⟨fun _ => by rw [h], fun hne => absurd h hne⟩
  · rw [if_neg h]
    exact ⟨fun h0 => absurd h0 h, fun _ => ⟨rfl, rfl⟩⟩

set_option maxRecDepth 100000 in
/-- C10 witness: the guard theorem applied at the zero sample (magnitude
evaluates to 0, the angle is exactly 0) and at a half-scale real sample
(magnitude non-zero, the angle uses the division by that magnitude). -/
theorem c10_to_polar_zero_guard_witness :
    icomplex32_to_polar (fun _ => 999) ⟨0, 0⟩ = ⟨0, 0⟩ ∧
    (icomplex32_to_polar (fun _ => 999) ⟨1073741824, 0⟩).magnitude =
      sqrt_int32 (Q_SHIFT_RND ((1073741824 : Int) * 1073741824 + 0 * 0) 62 30) := by
  refine ⟨(c10_to_polar_zero_guard (fun _ => 999) ⟨0, 0⟩).1 (by decide), ?_⟩
  exact ((c10_to_polar_zero_guard (fun _ => 999) ⟨1073741824, 0⟩).2 (by decide)).1

/-! ## Claim C2 -/

/-- The recursive form is bounded by the uint16_t range. -/
theorem brev_lt (len : Nat) : ∀ i, brev len i < 65536
  | 0 => by simp [brev]
  | i + 1 => by
    rw [brev]
    exact Nat.mod_lt _ (by decide)

/-- After processing indices 1..k, the partial bit-reverse table holds
brev values up to index k and zeros above, and keeps its length. -/
theorem bitrev_partial_spec (len size : Nat) :
    ∀ k, k < size →
      ((List.range' 1 k).foldl (bitrev_body len) (List.replicate size 0)).length = size ∧
      ∀ i, i < size →
        ((List.range' 1 k).foldl (bitrev_body len) (List.replicate size 0)).getD i 0 =
          if i ≤ k then brev len i else 0
  | 0, _ => by
    refine ⟨by simp, fun i _ => ?_⟩
    match i with
    | 0 => simp [getD_replicate_self, brev]
    | j + 1 => simp [getD_replicate_self]
  | k + 1, hk => by
    have hk' : k < size := Nat.lt_of_succ_lt hk
    obtain ⟨ihlen, ih⟩ := bitrev_partial_spec len size k hk'
    have hconc : List.range' 1 (k + 1) = List.range' 1 k ++ [k + 1] := by
      rw [List.range'_concat]
      simp [Nat.add_comm]
    rw [hconc, List.foldl_append]
    set T := (List.range' 1 k).foldl (bitrev_body len) (List.replicate size 0) with hT
    have hhalf_le : (k + 1) / 2 ≤ k := Nat.lt_succ_iff.mp (Nat.div_lt_self (Nat.succ_pos k) one_lt_two)
    have hhalf_lt : (k + 1) / 2 < size := Nat.lt_of_le_of_lt hhalf_le hk'
    have hgetD_half : T.getD ((k + 1) / 2) 0 = brev len ((k + 1) / 2) := by
      rw [ih _ hhalf_lt, if_pos hhalf_le]
    have hval : bitrev_body len T (k + 1) = T.set (k + 1) (brev len (k + 1)) := by
      unfold bitrev_body
      rw [hgetD_half, brev]
    rw [List.foldl_cons, List.foldl_nil, hval]
    refine ⟨by rw [List.length_set, ihlen], fun i hi => ?_⟩
    by_cases hik : i = k + 1
    · subst hik
      rw [List.getD_eq_getElem _ _ (by rw [List.length_set, ihlen]; exact hi),
        List.getElem_set_self, if_pos (Nat.le_refl _)]
    · rw [List.getD_eq_getElem _ _ (by rw [List.length_set, ihlen]; exact hi),
        List.getElem_set_ne (fun h => hik h.symm) (by rw [List.length_set, ihlen]; exact hi),
        ← List.getD_eq_getElem _ _ (by rw [ihlen]; exact hi), ih _ hi]
      by_cases hle : i ≤ k
      · rw [if_pos hle, if_pos (Nat.le_succ_of_le hle)]
      · rw [if_neg hle, if_neg (fun h => hle (Nat.lt_succ_iff.mp (Nat.lt_of_le_of_ne h hik)))]

/-- C2: the bit-reversal table of a plan of size 2^len satisfies
rev[0] = 0 and rev[i] = (rev[i >> 1] >> 1) | ((i & 1) << (len - 1)) for
every i in [1, size); in particular the size-8 table is
[0,4,2,6,1,5,3,7] and the size-16 table is
[0,8,4,12,2,10,6,14,1,9,5,13,3,11,7,15]. -/
theorem c2_bit_reverse_table (len size : Nat) (hsize : size = 2 ^ len) (hlen : len ≤ 16) :
    ((fft_plan_init_bit_reverse size len).getD 0 0 = 0 ∧
     ∀ i, 1 ≤ i → i < size →
       (fft_plan_init_bit_reverse size len).getD i 0 =
         (fft_plan_init_bit_reverse size len).getD (i / 2) 0 / 2 |||
           (i % 2) <<< (len - 1)) ∧
    fft_plan_init_bit_reverse 8 3 = [0, 4, 2, 6, 1, 5, 3, 7] ∧
    fft_plan_init_bit_reverse 16 4 = [0, 8, 4, 12, 2, 10, 6, 14, 1, 9, 5, 13, 3, 11, 7, 15] := by
  have hpos : 0 < size := hsize ▸ Nat.pos_pow_of_pos len (by decide)
  have hk : size - 1 < size := Nat.sub_lt hpos (by decide)
  obtain ⟨_, hget⟩ := bitrev_partial_spec len size (size - 1) hk
  have htab : ∀ i, i < size →
      (fft_plan_init_bit_reverse size len).getD i 0 = brev len i := by
    intro i hi
    unfold fft_plan_init_bit_reverse
    rw [hget i hi, if_pos (Nat.le_sub_one_of_lt hi)]
  refine ⟨⟨?_, ?_⟩, by decide, by decide⟩
  · rw [htab 0 hpos]
    simp [brev]
  · intro i h1 hi
    have hhalf : i / 2 < size := Nat.lt_of_le_of_lt (Nat.div_le_self i 2) hi
    rw [htab i hi, htab _ hhalf]
    match i, h1 with
    | j + 1, _ =>
      rw [brev]
      have hx : brev len ((j + 1) / 2) / 2 < 2 ^ 16 :=
        Nat.lt_of_le_of_lt (Nat.div_le_self _ 2) (brev_lt len _)
      have hy : ((j + 1) % 2) <<< (len - 1) < 2 ^ 16 := by
        rw [Nat.shiftLeft_eq]
        calc ((j + 1) % 2) * 2 ^ (len - 1) ≤ 1 * 2 ^ (len - 1) :=
              Nat.mul_le_mul_right _ (Nat.le_of_lt_succ (Nat.mod_lt _ (by decide)))
          _ = 2 ^ (len - 1) := one_mul _
          _ < 2 ^ 16 := Nat.pow_lt_pow_right (by decide)
              (Nat.lt_succ_of_le (Nat.sub_le_sub_right hlen 1))
      exact Nat.mod_eq_of_lt (Nat.or_lt_two_pow hx hy)

/-- C2 witness: the table theorem applied at the size-8 plan, giving the
recurrence at index 5 with all hypotheses discharged concretely. -/
theorem c2_bit_reverse_table_witness :
    (fft_plan_init_bit_reverse 8 3).getD 5 0 =
      (fft_plan_init_bit_reverse 8 3).getD 2 0 / 2 ||| 1 <<< 2 :=
  (c2_bit_reverse_table 3 8 rfl (by decide)).1.2 5 (by decide) (by decide)

/-! ## Claim C9 -/

/-- After processing indices half..half+t-1, the symmetry loop has kept
the length, left every bin below half untouched, and set every processed
bin i to the conjugate mirror of the original bin 2*half - 2 - i. -/
theorem sym_partial_spec (half size : Nat) (out : List icomplex32)
    (hlen : out.length = size) (hhalf : 1 ≤ half) :
    ∀ t, t ≤ size - half →
      ((List.range' half t).foldl (sym_body half) out).length = size ∧
      (∀ i, i < half →
        ((List.range' half t).foldl (sym_body half) out).getD i czero = out.getD i czero) ∧
      (∀ i, half ≤ i → i < half + t →
        ((List.range' half t).foldl (sym_body half) out).getD i czero =
          ⟨(out.getD (2 * half - 2 - i) czero).real,
           -((out.getD (2 * half - 2 - i) czero).imag)⟩)
  | 0, _ => by
    refine ⟨hlen, fun i _ => rfl, fun i h1 h2 => absurd (Nat.lt_of_le_of_lt h1 h2) (by omega)⟩
  | t + 1, ht => by
    have ht' : t ≤ size - half := Nat.le_of_succ_le ht
    obtain ⟨ihlen, ihlow, ihdone⟩ := sym_partial_spec half size out hlen hhalf t ht'
    have hconc : List.range' half (t + 1) = List.range' half t ++ [half + t] := by
      rw [List.range'_concat]
      simp [Nat.mul_one]
    rw [hconc, List.foldl_append, List.foldl_cons, List.foldl_nil]
    set T := (List.range' half t).foldl (sym_body half) out with hT
    have hp : half + t < size := by omega
    have hk : 2 * half - 2 - (half + t) < half := by omega
    have hkT : T.getD (2 * half - 2 - (half + t)) czero =
        out.getD (2 * half - 2 - (half + t)) czero := ihlow _ hk
    refine ⟨by rw [sym_body, List.length_set, ihlen], fun i hi => ?_, fun i h1 h2 => ?_⟩
    · have hne : half + t ≠ i := by omega
      rw [sym_body, List.getD_eq_getElem _ _ (by rw [List.length_set, ihlen]; omega),
        List.getElem_set_ne hne (by rw [List.length_set, ihlen]; omega),
        ← List.getD_eq_getElem _ _ (by rw [ihlen]; omega)]
      exact ihlow i hi
    · by_cases hip : i = half + t
      · subst hip
        rw [sym_body, List.getD_eq_getElem _ _ (by rw [List.length_set, ihlen]; omega),
          List.getElem_set_self, hkT]
      · have hi2 : i < half + t := by omega
        have hne : half + t ≠ i := by omega
        rw [sym_body, List.getD_eq_getElem _ _ (by rw [List.length_set, ihlen]; omega),
          List.getElem_set_ne hne (by rw [List.length_set, ihlen]; omega),
          ← List.getD_eq_getElem _ _ (by rw [ihlen]; omega)]
        exact ihdone i h1 hi2

/-- C9: after the spectrum symmetry reconstruction, every bin i in
[half_fft_size, fft_size) carries the conjugate mirror of bin
2*half_fft_size - 2 - i (equal real part, negated imaginary part), and
every bin below half_fft_size is unchanged.  The hypothesis
size <= 2*half - 1 holds for the real configuration
half = size/2 + 1 of the setup code and makes the source's int index
arithmetic agree with the Nat subtraction used here. -/
theorem c9_apply_symmetry (half size : Nat) (out : List icomplex32)
    (hlen : out.length = size) (hhalf : 1 ≤ half) (hsz : size ≤ 2 * half - 1) :
    (∀ i, i < half →
      (stft_apply_fft_symmetry half size out).getD i czero = out.getD i czero) ∧
    (∀ i, half ≤ i → i < size →
      ((stft_apply_fft_symmetry half size out).getD i czero).real =
        ((stft_apply_fft_symmetry half size out).getD (2 * half - 2 - i) czero).real ∧
      ((stft_apply_fft_symmetry half size out).getD i czero).imag =
        -(((stft_apply_fft_symmetry half size out).getD (2 * half - 2 - i) czero).imag)) := by
  obtain ⟨_, hlow, hdone⟩ := sym_partial_spec half size out hlen hhalf (size - half) (Nat.le_refl _)
  have heq : stft_apply_fft_symmetry half size out =
      (List.range' half (size - half)).foldl (sym_body half) out := rfl
  refine ⟨fun i hi => heq ▸ hlow i hi, fun i h1 h2 => ?_⟩
  have hk : 2 * half - 2 - i < half := by omega
  have hmir : (stft_apply_fft_symmetry half size out).getD i czero =
      ⟨(out.getD (2 * half - 2 - i) czero).real,
       -((out.getD (2 * half - 2 - i) czero).imag)⟩ := by
    rw [heq]; exact hdone i h1 (by omega)
  have hkeep : (stft_apply_fft_symmetry half size out).getD (2 * half - 2 - i) czero =
      out.getD (2 * half - 2 - i) czero := by
    rw [heq]; exact hlow _ hk
  rw [hmir, hkeep]
  exact ⟨rfl, rfl⟩

/-- C9 witness: the symmetry theorem applied to a concrete length-4
spectrum with half = 3 at bin 3, whose mirror bin is 1. -/
theorem c9_apply_symmetry_witness :
    ((stft_apply_fft_symmetry 3 4 [⟨1, 2⟩, ⟨3, 4⟩, ⟨5, 6⟩, ⟨9, 9⟩]).getD 3 czero).real =
      ((stft_apply_fft_symmetry 3 4 [⟨1, 2⟩, ⟨3, 4⟩, ⟨5, 6⟩, ⟨9, 9⟩]).getD 1 czero).real ∧
    ((stft_apply_fft_symmetry 3 4 [⟨1, 2⟩, ⟨3, 4⟩, ⟨5, 6⟩, ⟨9, 9⟩]).getD 3 czero).imag =
      -(((stft_apply_fft_symmetry 3 4 [⟨1, 2⟩, ⟨3, 4⟩, ⟨5, 6⟩, ⟨9, 9⟩]).getD 1 czero).imag) :=
  (c9_apply_symmetry 3 4 [⟨1, 2⟩, ⟨3, 4⟩, ⟨5, 6⟩, ⟨9, 9⟩] rfl (by decide) (by decide)).2
    3 (by decide) (by decide)

/-! ## Claim C5 -/

/-- On success the fill_prev_samples chunk loop returns a read pointer
inside the allocation: each chunk advances by at most
samples_without_wrap and then wraps. -/
theorem fill_prev_go_ptr (len : Nat) (data : List Int) (length : Nat) (hlen : 0 < len) :
    ∀ fuel copied r acc res, r < len →
      fill_prev_go len data length fuel copied r acc = some res → res.2.1 < len
  | 0, copied, r, acc, res, hr => by
    rw [fill_prev_go]
    split
    · intro h; exact absurd h (by simp)
    · intro h
      obtain rfl : (acc, r, copied) = res := by
        simpa using h
      exact hr
  | fuel + 1, copied, r, acc, res, hr => by
    rw [fill_prev_go]
    split
    · have hr' : (if r + min (len - r) (length - copied) ≥ len
          then r + min (len - r) (length - copied) - len
          else r + min (len - r) (length - copied)) < len := by
        have : min (len - r) (length - copied) ≤ len - r := Nat.min_le_left _ _
        split <;> omega
      exact fill_prev_go_ptr len data length hlen fuel _ _ _ res hr'
    · intro h
      obtain rfl : (acc, r, copied) = res := by
        simpa using h
      exact hr

/-- Same pointer fact for the fill_fft_buffer chunk loop. -/
theorem fill_fft_go_ptr (len : Nat) (data : List Int) (hop : Nat) (hlen : 0 < len) :
    ∀ fuel copied r idx fb res, r < len →
      fill_fft_go len data hop fuel copied r idx fb = some res → res.2.1 < len
  | 0, copied, r, idx, fb, res, hr => by
    rw [fill_fft_go]
    split
    · intro h; exact absurd h (by simp)
    · intro h
      obtain rfl : (fb, r, copied) = res := by
        simpa using h
      exact hr
  | fuel + 1, copied, r, idx, fb, res, hr => by
    rw [fill_fft_go]
    split
    · have hr' : (if r + min (len - r) (hop - copied) ≥ len
          then r + min (len - r) (hop - copied) - len
          else r + min (len - r) (hop - copied)) < len := by
        have : min (len - r) (hop - copied) ≤ len - r := Nat.min_le_left _ _
        split <;> omega
      exact fill_fft_go_ptr len data hop hlen fuel _ _ _ _ res hr'
    · intro h
      obtain rfl : (fb, r, copied) = res := by
        simpa using h
      exact hr

/-- The per-sample copy loop of the source writer advances the write
cursor by exactly the sample count and never touches frames_left or
frames. -/
theorem src_copy_fields (p : src_s16_params) :
    ∀ n st, (src_copy p n st).w = st.w + n ∧
      (src_copy p n st).frames_left = st.frames_left ∧
      (src_copy p n st).frames = st.frames := by
  intro n
  induction n with
  | zero => intro st; exact ⟨rfl, rfl, rfl⟩
  | succ n ih =>
    intro st
    refine ⟨?_, ?_, ?_⟩
    · rw [src_copy, (ih _).1]
      show st.w + 1 + n = st.w + (n + 1)
      omega
    · rw [src_copy, (ih _).2.1]
    · rw [src_copy, (ih _).2.2]

/-- One writer loop iteration keeps the write cursor inside the
allocation: the chunk size is bounded by samples_without_wrap(w) and the
cursor is wrapped after advancing. -/
theorem src_s16_body_w (p : src_s16_params) (st : src_s16_state)
    (hw : st.w < p.bufLen) (hlen : 0 < p.bufLen) :
    (src_s16_body p st).w < p.bufLen := by
  unfold src_s16_body
  have hcopy := (src_copy_fields p (min (min (Int.tdiv ((p.x_size : Int) - st.x) p.channels)
    ((p.bufLen : Int) - st.w)) st.frames).toNat st).1
  have hn : (min (min (Int.tdiv ((p.x_size : Int) - st.x) p.channels)
      ((p.bufLen : Int) - st.w)) st.frames).toNat ≤ p.bufLen - st.w := by
    have h1 : min (min (Int.tdiv ((p.x_size : Int) - st.x) p.channels)
        ((p.bufLen : Int) - st.w)) st.frames ≤ (p.bufLen : Int) - st.w :=
      le_trans (min_le_left _ _) (min_le_right _ _)
    have h2 := Int.toNat_le_toNat h1
    omega
  simp only [hcopy]
  split <;> omega

/-- The writer loop body never modifies frames_left. -/
theorem src_s16_body_frames_left (p : src_s16_params) (st : src_s16_state) :
    (src_s16_body p st).frames_left = st.frames_left := by
  unfold src_s16_body
  exact (src_copy_fields p _ st).2.1

/-- If the writer loop exits, its final write cursor is inside the
allocation. -/
theorem src_s16_loop_w (p : src_s16_params) (hlen : 0 < p.bufLen) :
    ∀ fuel st st2, st.w < p.bufLen → src_s16_loop p fuel st = some st2 →
      st2.w < p.bufLen
  | 0, st, st2, hw => by
    rw [src_s16_loop]
    split
    · intro h
      obtain rfl : st = st2 := by simpa using h
      exact hw
    · intro h; exact absurd h (by simp)
  | fuel + 1, st, st2, hw => by
    rw [src_s16_loop]
    split
    · intro h
      obtain rfl : st = st2 := by simpa using h
      exact hw
    · exact src_s16_loop_w p hlen fuel _ st2 (src_s16_body_w p st hw hlen)

/-- C5: the circular-buffer invariant s_avail + s_free = s_length with
in-range cursors holds after stft_process_init_buffer and is preserved by
stft_process_fill_prev_samples, stft_process_fill_fft_buffer and
stft_process_source_s16 whenever they return; moreover a single writer
loop iteration never moves the write cursor past end_addr without
wrapping it back inside the allocation. -/
theorem c5_buffer_invariant :
    (∀ size data, 0 < size → buf_inv (stft_process_init_buffer size data)) ∧
    (∀ buf n fuel pd buf2, buf_inv buf →
      stft_process_fill_prev_samples buf n fuel = some (pd, buf2) → buf_inv buf2) ∧
    (∀ buf pd fb idx hop fuel fb2 pd2 buf2, buf_inv buf →
      stft_process_fill_fft_buffer buf pd fb idx hop fuel = some (fb2, pd2, buf2) →
      buf_inv buf2) ∧
    (∀ p buf frames x0 d0 fuel buf2, buf_inv buf → p.bufLen = buf.s_length →
      stft_process_source_s16 p buf frames x0 d0 fuel = some buf2 → buf_inv buf2) ∧
    (∀ p st, st.w < p.bufLen → 0 < p.bufLen → (src_s16_body p st).w < p.bufLen) := by
  refine ⟨?_, ?_, ?_, ?_, fun p st hw hl => src_s16_body_w p st hw hl⟩
  · intro size data hpos
    exact ⟨by simp [stft_process_init_buffer], hpos, hpos⟩
  · intro buf n fuel pd buf2 hinv heq
    obtain ⟨hsum, hr, hw⟩ := hinv
    unfold stft_process_fill_prev_samples at heq
    split at heq
    · exact absurd heq (by simp)
    · rename_i acc r copied hgo
      simp only [Option.some.injEq, Prod.mk.injEq] at heq
      obtain ⟨hpd, rfl⟩ := heq
      have hr2 : r < buf.s_length :=
        fill_prev_go_ptr buf.s_length buf.data n (Nat.lt_of_le_of_lt (Nat.zero_le _) hr)
          fuel 0 buf.r_ptr [] (acc, r, copied) hr hgo
      refine ⟨?_, hr2, hw⟩
      show buf.s_avail - copied + (buf.s_free + copied) = (buf.s_length : Int)
      omega
  · intro buf pd fb idx hop fuel fb2 pd2 buf2 hinv heq
    obtain ⟨hsum, hr, hw⟩ := hinv
    simp only [stft_process_fill_fft_buffer] at heq
    split at heq
    · exact absurd heq (by simp)
    · rename_i fbr r copied hgo
      simp only [Option.some.injEq, Prod.mk.injEq] at heq
      obtain ⟨hfb, hpd, rfl⟩ := heq
      have hr2 : r < buf.s_length :=
        fill_fft_go_ptr buf.s_length buf.data hop (Nat.lt_of_le_of_lt (Nat.zero_le _) hr)
          fuel 0 buf.r_ptr _ _ (fbr, r, copied) hr hgo
      refine ⟨?_, hr2, hw⟩
      show buf.s_avail - copied + (buf.s_free + copied) = (buf.s_length : Int)
      omega
  · intro p buf frames x0 d0 fuel buf2 hinv hplen heq
    obtain ⟨hsum, hr, hw⟩ := hinv
    unfold stft_process_source_s16 at heq
    split at heq
    · exact absurd heq (by simp)
    · rename_i st hloop
      simp only [Option.some.injEq] at heq
      obtain rfl := heq
      have hw2 : st.w < p.bufLen :=
        src_s16_loop_w p (hplen ▸ Nat.lt_of_le_of_lt (Nat.zero_le _) hw) fuel _ st
          (by show buf.w_ptr < p.bufLen; rw [hplen]; exact hw) hloop
      refine ⟨?_, hr, by rw [← hplen]; exact hw2⟩
      show buf.s_avail + st.frames + (buf.s_free - st.frames) = (buf.s_length : Int)
      omega

/-- C5 witness: the invariant theorem applied to the freshly initialised
size-4 buffer, to a concrete successful fill_prev_samples call on it, and
to a concrete zero-frame writer call. -/
theorem c5_buffer_invariant_witness :
    buf_inv (stft_process_init_buffer 4 [10, 20, 30, 40]) ∧
    buf_inv ⟨2, 0, -2, 6, 4, [10, 20, 30, 40]⟩ ∧
    buf_inv ⟨0, 0, 0, 4, 4, [10, 20, 30, 40]⟩ := by
  refine ⟨c5_buffer_invariant.1 4 [10, 20, 30, 40] (by decide), ?_, ?_⟩
  · exact c5_buffer_invariant.2.1 (stft_process_init_buffer 4 [10, 20, 30, 40]) 2 3
      [10, 20] ⟨2, 0, -2, 6, 4, [10, 20, 30, 40]⟩
      (c5_buffer_invariant.1 4 [10, 20, 30, 40] (by decide)) (by decide)
  · exact c5_buffer_invariant.2.2.2.1 ⟨1, 0, 1, [7], false, 0, 4⟩
      (stft_process_init_buffer 4 [10, 20, 30, 40]) 0 0 0 1
      ⟨0, 0, 0, 4, 4, [10, 20, 30, 40]⟩
      (c5_buffer_invariant.1 4 [10, 20, 30, 40] (by decide)) (by decide) (by decide)

/-! ## Claim C4 -/

/-- Since the loop body never modifies frames_left, a loop entered with a
non-zero frames_left never exits, whatever the fuel. -/
theorem src_s16_loop_never_exits (p : src_s16_params) :
    ∀ fuel st, st.frames_left ≠ 0 → src_s16_loop p fuel st = none
  | 0, st, h => by
    rw [src_s16_loop, if_neg h]
  | fuel + 1, st, h => by
    rw [src_s16_loop, if_neg h]
    exact src_s16_loop_never_exits p fuel _
      (by rw [src_s16_body_frames_left]; exact h)

/-- C4: the claim states that stft_process_source_s16 terminates after
copying the requested frames and updating s_avail/s_free by that count.
The source loop `while (frames_left)` decrements the variable `frames`
instead of `frames_left`, so for any positive frame count the loop never
exits: on a concrete one-frame request with one frame available in the
source and four samples free in the destination the function does not
return within any number of loop iterations (and consequently never
performs the counter updates). -/
theorem c4_source_s16_never_terminates :
    (∀ p st, (src_s16_body p st).frames_left = st.frames_left) ∧
    (∀ fuel, stft_process_source_s16 ⟨1, 0, 1, [7], false, 0, 4⟩
      (stft_process_init_buffer 4 (List.replicate 4 0)) 1 0 0 fuel = none) := by
  refine ⟨fun p st => src_s16_body_frames_left p st, fun fuel => ?_⟩
  unfold stft_process_source_s16
  rw [src_s16_loop_never_exits _ fuel _ (by decide : (1 : Int) ≠ 0)]

/-! ## Claim C8 -/

/-- The per-hop loop never touches the waiting_fill flag. -/
theorem stft_hops_waiting (P : stft_params) :
    ∀ k s cc res, stft_hops P k s cc = some res →
      res.1.waiting_fill = s.waiting_fill
  | 0, s, cc, res, h => by
    rw [stft_hops] at h
    obtain rfl : (s, cc) = res := Option.some.inj h
    rfl
  | k + 1, s, cc, res, h => by
    rw [stft_hops] at h
    split at h
    · exact absurd h (by simp)
    · have h3 := stft_hops_waiting P k _ _ res h
      exact h3

/-- Phases 2 and 3 never touch the waiting_fill flag. -/
theorem stft_phase2_waiting (P : stft_params) (s s1 : stft_state) (cc : Int)
    (h : stft_phase2 P s = some (s1, cc)) : s1.waiting_fill = s.waiting_fill := by
  simp only [stft_phase2] at h
  split at h
  · exact absurd h (by simp)
  · rename_i s2 hstep
    have h2 : s1.waiting_fill = s2.waiting_fill := stft_hops_waiting P _ s2 0 (s1, cc) h
    rw [h2]
    split at hstep
    · split at hstep
      · exact absurd hstep (by simp)
      · rename_i pd buf' hfill
        obtain rfl := Option.some.inj hstep
        rfl
    · obtain rfl := Option.some.inj hstep
      rfl

/-- C8: while waiting_fill is set and fewer than fft_size samples are
available, one processing step returns the zero coefficient count with
the state untouched (no samples consumed) and succeeds — underrun is not
an error; once the available count reaches fft_size the step behaves
exactly as with waiting_fill already cleared, and a step that starts (or
continues) with waiting_fill cleared never sets it again, so the flag is
cleared exactly the first time s_avail reaches fft_size and hop-by-hop
processing proceeds from then on. -/
theorem c8_warming_up (P : stft_params) (s : stft_state) :
    (s.waiting_fill = true → s.buf.s_avail < P.fft_size →
      stft_process_stft_process P s = some (s, 0)) ∧
    (P.fft_size ≤ s.buf.s_avail →
      stft_process_stft_process P s =
        stft_process_stft_process P { s with waiting_fill := false }) ∧
    (∀ s1 cc, s.waiting_fill = false →
      stft_process_stft_process P s = some (s1, cc) → s1.waiting_fill = false) := by
  refine ⟨?_, ?_, ?_⟩
  · intro hw hlt
    unfold stft_process_stft_process
    rw [if_pos hw, if_pos hlt]
  · intro hge
    have hnlt : ¬s.buf.s_avail < P.fft_size := not_lt.mpr hge
    unfold stft_process_stft_process
    by_cases hw : s.waiting_fill = true
    · rw [if_pos hw, if_neg hnlt, if_neg (by simp)]
    · have hs : ({ s with waiting_fill := false } : stft_state) = s := by
        obtain ⟨w, v, b, pd⟩ := s
        simp only [Bool.not_eq_true] at hw
        simp [hw]
      rw [hs]
  · intro s1 cc hw h
    rw [stft_process_stft_process, if_neg (by rw [hw]; simp)] at h
    rw [stft_phase2_waiting P s s1 cc h, hw]

/-- C8 witness: with fft_size 4 and only 2 samples available in the
warming-up state, the step returns the unchanged state and a zero
coefficient count. -/
theorem c8_warming_up_witness :
    stft_process_stft_process ⟨4, 4, 2, 2, 0, 13⟩
      ⟨true, false, ⟨0, 0, 2, 2, 4, [1, 2, 3, 4]⟩, [0, 0]⟩ =
      some (⟨true, false, ⟨0, 0, 2, 2, 4, [1, 2, 3, 4]⟩, [0, 0]⟩, 0) :=
  (c8_warming_up ⟨4, 4, 2, 2, 0, 13⟩
    ⟨true, false, ⟨0, 0, 2, 2, 4, [1, 2, 3, 4]⟩, [0, 0]⟩).1 rfl (by decide)

/-! ## Claim C6 -/

/-- A fold whose step preserves list length preserves it overall. -/
theorem foldl_length_preserved {β : Type} (f : List icomplex32 → β → List icomplex32)
    (h : ∀ o b, (f o b).length = o.length) :
    ∀ (l : List β) (o : List icomplex32), (l.foldl f o).length = o.length
  | [], _ => rfl
  | b :: l, o => by
    rw [List.foldl_cons, foldl_length_preserved f h l (f o b), h]

/-- A fold over List.range whose body rewrites entry i to a pure function
of entry i equals mapping that function, as long as the range stays
within the list. -/
theorem fold_pointwise_map (B : List icomplex32 → Nat → List icomplex32)
    (g : icomplex32 → icomplex32)
    (hB : ∀ o i, i < o.length → B o i = o.set i (g (o.getD i czero))) :
    ∀ (l : List icomplex32) (k : Nat), k ≤ l.length →
      (List.range k).foldl B l = (l.take k).map g ++ l.drop k := by
  intro l k
  induction k with
  | zero => intro _; simp
  | succ k ih =>
    intro hk
    have hklt : k < l.length := hk
    rw [List.range_succ, List.foldl_append, List.foldl_cons, List.foldl_nil,
      ih (Nat.le_of_succ_le hk)]
    have hAlen : ((l.take k).map g).length = k := by
      rw [List.length_map, List.length_take]; omega
    have hlen2 : ((l.take k).map g ++ l.drop k).length = l.length := by
      rw [List.length_append, hAlen, List.length_drop]; omega
    rw [hB _ k (by rw [hlen2]; exact hklt)]
    have hgetD : ((l.take k).map g ++ l.drop k).getD k czero = l[k] := by
      rw [List.getD_append_right _ _ _ _ (by rw [hAlen]), hAlen, Nat.sub_self,
        List.drop_eq_getElem_cons hklt]
      rfl
    rw [hgetD, List.set_append, if_neg (by rw [hAlen]; omega), hAlen, Nat.sub_self,
      List.drop_eq_getElem_cons hklt]
    show (l.take k).map g ++ (g l[k] :: l.drop (k + 1)) =
      (l.take (k + 1)).map g ++ l.drop (k + 1)
    rw [List.take_succ, List.map_append, List.getElem?_eq_getElem hklt]
    simp

/-- The post-loop body rewrites entry i, for in-range i, to the
claim-side per-sample post-processing function c6_post. -/
theorem ifft_scale_body_pointwise (len : Nat) (o : List icomplex32) (i : Nat)
    (hi : i < o.length) :
    ifft_scale_body len o i = o.set i (c6_post len (o.getD i czero)) := by
  have h1 : (o.set i ⟨(o.getD i czero).real, -(o.getD i czero).imag⟩).getD i czero =
      ⟨(o.getD i czero).real, -(o.getD i czero).imag⟩ := by
    rw [List.getD_eq_getElem _ _ (by rw [List.length_set]; exact hi),
      List.getElem_set_self]
  have h2 : (o.set i (icomplex32_shift ⟨(o.getD i czero).real, -(o.getD i czero).imag⟩
      (len : Int))).getD i czero =
      icomplex32_shift ⟨(o.getD i czero).real, -(o.getD i czero).imag⟩ (len : Int) := by
    rw [List.getD_eq_getElem _ _ (by rw [List.length_set]; exact hi),
      List.getElem_set_self]
  simp only [ifft_scale_body, List.set_set, h1, h2]
  rfl

/-- The post-loop body preserves the buffer length. -/
theorem ifft_scale_body_length (len : Nat) (o : List icomplex32) (i : Nat) :
    (ifft_scale_body len o i).length = o.length := by
  unfold ifft_scale_body
  rw [List.length_set, List.length_set, List.length_set]

/-- The combine stage writes through List.set only, so it keeps the
output buffer length. -/
theorem fft_multi_combine_32_length (fs len : Nat) (bitrev : List Nat)
    (twr twi mtwr mtwi : Nat → Int) (mtwSize : Nat) (ifft : Bool)
    (inb outb : List icomplex32) :
    (fft_multi_combine_32 fs len bitrev twr twi mtwr mtwi mtwSize ifft inb outb).length =
      outb.length := by
  unfold fft_multi_combine_32
  exact foldl_length_preserved _
    (fun o b => by rw [List.length_set, List.length_set, List.length_set]) _ _

/-- C6: in the inverse direction of the three-sub-FFT composite path,
every one of the total_size = 3 * fft_size output samples equals the
radix-3 combine result post-processed exactly as the claim describes:
imaginary part negated, both parts left-shifted by log2 of the sub-FFT
size, then both parts multiplied by 3 with int32 saturation — for every
twiddle table, bit-reverse table and input. -/
theorem c6_multi_ifft_postprocessing (fs len mtwSize : Nat) (bitrev : List Nat)
    (twr twi mtwr mtwi : Nat → Int) (inb outb : List icomplex32)
    (hlen : outb.length = 3 * fs) (hpow : fs = 2 ^ len) :
    ∀ i, i < 3 * fs →
      (fft_multi_execute_32_c3 fs len bitrev twr twi mtwr mtwi mtwSize true
        inb outb).getD i czero =
      c6_post len ((fft_multi_combine_32 fs len bitrev twr twi mtwr mtwi mtwSize true
        inb outb).getD i czero) := by
  intro i hi
  have hclen : (fft_multi_combine_32 fs len bitrev twr twi mtwr mtwi mtwSize true
      inb outb).length = 3 * fs := by
    rw [fft_multi_combine_32_length, hlen]
  have hexec : fft_multi_execute_32_c3 fs len bitrev twr twi mtwr mtwi mtwSize true
      inb outb =
      (fft_multi_combine_32 fs len bitrev twr twi mtwr mtwi mtwSize true inb outb).map
        (c6_post len) := by
    show (List.range (3 * fs)).foldl (ifft_scale_body len)
        (fft_multi_combine_32 fs len bitrev twr twi mtwr mtwi mtwSize true inb outb) = _
    rw [fold_pointwise_map (ifft_scale_body len) (c6_post len)
      (ifft_scale_body_pointwise len) _ (3 * fs) (le_of_eq hclen.symm)]
    rw [List.take_of_length_le (le_of_eq hclen), List.drop_of_length_le (le_of_eq hclen)]
    simp
  rw [hexec, List.getD_eq_getElem _ _ (by rw [List.length_map, hclen]; exact hi),
    List.getElem_map, ← List.getD_eq_getElem _ czero (by rw [hclen]; exact hi)]

/-- C6 witness: the post-processing theorem applied to a concrete
composite plan with sub-FFT size 2 (total size 6), concrete twiddle
tables and input, at output index 1. -/
theorem c6_multi_ifft_postprocessing_witness :
    (fft_multi_execute_32_c3 2 1 [0, 1] (fun _ => 1073741824) (fun _ => -536870912)
      (fun _ => 268435456) (fun _ => -268435456) 8 true
      [⟨1000, 2000⟩, ⟨-3000, 400⟩, ⟨500, -600⟩, ⟨70, 80⟩, ⟨90, 100⟩, ⟨-110, 120⟩]
      (List.replicate 6 czero)).getD 1 czero =
    c6_post 1 ((fft_multi_combine_32 2 1 [0, 1] (fun _ => 1073741824) (fun _ => -536870912)
      (fun _ => 268435456) (fun _ => -268435456) 8 true
      [⟨1000, 2000⟩, ⟨-3000, 400⟩, ⟨500, -600⟩, ⟨70, 80⟩, ⟨90, 100⟩, ⟨-110, 120⟩]
      (List.replicate 6 czero)).getD 1 czero) :=
  c6_multi_ifft_postprocessing 2 1 8 [0, 1] (fun _ => 1073741824) (fun _ => -536870912)
    (fun _ => 268435456) (fun _ => -268435456)
    [⟨1000, 2000⟩, ⟨-3000, 400⟩, ⟨500, -600⟩, ⟨70, 80⟩, ⟨90, 100⟩, ⟨-110, 120⟩]
    (List.replicate 6 czero) (by decide) (by decide) 1 (by decide)

end SofStft
